import Mathlib

/-!
Verification of `tensorflow/tools/api/generator/create_python_api.py`.

The file shallowly embeds the generator's core: `format_import`, the
`_ModuleInitCodeBuilder` class (its `add_import` method and its `build`
method), the parent-chain synthesis loop of `get_api_init_text`, and the
missing-output check of `create_api_files`.

Modelling conventions:
  * Python dicts (including `collections.defaultdict`) preserve insertion
    order; they are embedded as association lists (`List (String × _)`)
    with `alistLookup` / `alistInsert`, where `alistInsert` updates an
    existing key in place and appends a fresh key at the end, exactly the
    Python dict semantics.
  * Python sets of strings are embedded as duplicate-free lists with
    `setAdd` (membership-guarded append); the generator only ever reads a
    set through `sorted(...)`, which is order-insensitive.
  * A method that can `raise` is embedded as returning
    `State × Option String`: on `(s, some msg)` the exception `msg`
    propagated and — because in the source the `raise` precedes every
    mutation — the state `s` is the receiver's unchanged state.
  * `symbol_id` values are integers with `-1` as the no-check sentinel,
    exactly as in the source.
-/

namespace CreatePythonApi

/-- Lookup in an insertion-ordered association list (Python `d[k]` /
`k in d`). -/
def alistLookup {α : Type} : List (String × α) → String → Option α
  | [], _ => none
  | (k0, v0) :: rest, k => if k0 = k then some v0 else alistLookup rest k

/-- Insertion into an insertion-ordered association list (Python
`d[k] = v`): update in place when the key exists, append otherwise. -/
def alistInsert {α : Type} : List (String × α) → String → α → List (String × α)
  | [], k, v => [(k, v)]
  | (k0, v0) :: rest, k, v =>
      if k0 = k then (k, v) :: rest else (k0, v0) :: alistInsert rest k v

/-- Adding an element to a set of strings (Python `s.add(x)`), with the set
represented as a duplicate-free list. -/
def setAdd (s : List String) (x : String) : List String :=
  if x ∈ s then s else s ++ [x]

/-- Strict lexicographic comparison of two strings, given as their character
lists, by Unicode code point — the order Python uses to compare and sort
strings.  (Defined structurally so that concrete instances evaluate inside
the kernel; the core library's `String` order is not kernel-reducible.) -/
def charListLt : List Char → List Char → Bool
  | [], [] => false
  | [], _ :: _ => true
  | _ :: _, [] => false
  | a :: as, b :: bs => if a = b then charListLt as bs else decide (a.toNat < b.toNat)

/-- Python string comparison `a <= b`. -/
def strLe (a b : String) : Bool :=
  charListLt a.data b.data || decide (a = b)

/-- `strLe` as a relation, for use with `List.insertionSort`. -/
def strLeP (a b : String) : Prop := strLe a b = true

instance : DecidableRel strLeP := fun a b => instDecidableEqBool (strLe a b) true

/-- Python `s.startswith(c)` for a single-character prefix. -/
def startsWithChar (s : String) (c : Char) : Bool :=
  match s.data with
  | [] => false
  | d :: _ => d = c

/-- Python `s.split(sep)` for a single-character separator: the tail-worker
over the character list, with the accumulator holding the current (reversed)
segment. -/
def splitCharAux (sep : Char) : List Char → List Char → List String
  | [], acc => [String.mk acc.reverse]
  | c :: cs, acc =>
      if c = sep then String.mk acc.reverse :: splitCharAux sep cs []
      else splitCharAux sep cs (c :: acc)

/-- Python `s.split('.')`. -/
def pySplitDot (s : String) : List String := splitCharAux '.' s.data []

/-- Python `s.replace('.', '/')` (single-character replacement). -/
def replaceDotSlash (s : String) : String :=
  String.mk (s.data.map (fun c => if c = '.' then '/' else c))

/-- Source line 33: the root package of the generated output. -/
def OUTPUT_MODULE : String := "tensorflow.tools.api.generator.api"

/-- Source lines 47-68, `format_import(source_module_name, source_name,
dest_name)`: renders one import statement.  Python's `if source_module_name:`
tests non-emptiness of the string. -/
def format_import (source_module_name source_name dest_name : String) : String :=
  if source_module_name ≠ "" then
    if source_name = dest_name then
      "from " ++ source_module_name ++ " import " ++ source_name
    else
      "from " ++ source_module_name ++ " import " ++ source_name ++ " as " ++ dest_name
  else
    if source_name = dest_name then
      "import " ++ source_name
    else
      "import " ++ source_name ++ " as " ++ dest_name

/-- Source lines 100-102: the fully qualified destination name,
`dest_module_name + '.' + dest_name` or bare `dest_name` when the module is
empty. -/
def fullNameOf (dest_module_name dest_name : String) : String :=
  if dest_module_name ≠ "" then dest_module_name ++ "." ++ dest_name else dest_name

/-- The state of a `_ModuleInitCodeBuilder` object (source lines 74-79):
`module_imports` maps a destination module to a map from fully qualified
name to the set of candidate import statements; `dest_import_to_id` maps a
fully qualified name to the identity last recorded for it;
`underscore_names_in_root` lists root names starting with an underscore. -/
structure ModuleInitCodeBuilder where
  module_imports : List (String × List (String × List String))
  dest_import_to_id : List (String × Int)
  underscore_names_in_root : List String
deriving DecidableEq, Repr

/-- Source lines 74-79, `_ModuleInitCodeBuilder.__init__`. -/
def init : ModuleInitCodeBuilder := ⟨[], [], []⟩

/-- Source lines 103-105, the conflict test of `add_import`:
`full_api_name in self._dest_import_to_id and symbol_id !=
self._dest_import_to_id[full_api_name] and symbol_id != -1`. -/
def raisesCheck (ids : List (String × Int)) (symbol_id : Int)
    (full_api_name : String) : Bool :=
  match alistLookup ids full_api_name with
  | some prev_id => symbol_id != prev_id && symbol_id != -1
  | none => false

/-- Source lines 109-117, the mutations `add_import` performs after the
conflict check: record the identity (line 109), append an underscore root
name (lines 111-112), and add the import statement to the candidate set
(line 117, with the two `defaultdict` levels materialised on access). -/
def record (b : ModuleInitCodeBuilder) (symbol_id : Int)
    (dest_module_name full_api_name import_str dest_name : String) :
    ModuleInitCodeBuilder :=
  let ids := alistInsert b.dest_import_to_id full_api_name symbol_id
  let uns :=
    if dest_module_name = "" ∧ startsWithChar dest_name '_' then
      b.underscore_names_in_root ++ [dest_name]
    else b.underscore_names_in_root
  let inner := (alistLookup b.module_imports dest_module_name).getD []
  let inner2 := alistInsert inner full_api_name
      (setAdd ((alistLookup inner full_api_name).getD []) import_str)
  ⟨alistInsert b.module_imports dest_module_name inner2, ids, uns⟩

/-- Source lines 81-117, `_ModuleInitCodeBuilder.add_import`.  Returns the
object state after the call together with `some message` when the call
raised `SymbolExposedTwiceError` (in which case, since the `raise` on line
106 precedes every mutation, the returned state is the unchanged receiver). -/
def add_import (b : ModuleInitCodeBuilder) (symbol_id : Int)
    (dest_module_name source_module_name source_name dest_name : String) :
    ModuleInitCodeBuilder × Option String :=
  let import_str := format_import source_module_name source_name dest_name
  let full_api_name := fullNameOf dest_module_name dest_name
  if raisesCheck b.dest_import_to_id symbol_id full_api_name then
    (b, some ("Trying to export multiple symbols with same name: " ++
        full_api_name ++ "."))
  else
    (record b symbol_id dest_module_name full_api_name import_str dest_name, none)

/-- Sorting a list of strings lexicographically (Python `sorted`). -/
def sortStrings (l : List String) : List String :=
  List.insertionSort strLeP l

/-- Source lines 131-133: `sorted(imports)[0]`, the chosen statement for one
fully qualified name. -/
def pickImport (imports : List String) : String :=
  (sortStrings imports).headD ""

/-- Source lines 131-134: the generated text of one destination module,
`'\n'.join(sorted(imports_list))`. -/
def moduleText (dest_name_to_imports : List (String × List String)) : String :=
  String.intercalate "\n" (sortStrings (dest_name_to_imports.map (fun p => pickImport p.2)))

/-- A single quote character, used by the root epilogue literals. -/
def sq : String := (Char.ofNat 39).toString

/-- Source lines 138-139: `', '.join('<name>' for name in
self._underscore_names_in_root)` with each name single-quoted. -/
def underscoreNamesStr (names : List String) : String :=
  String.intercalate ", " (names.map (fun name => sq ++ name ++ sq))

/-- Source lines 140-144: the epilogue appended to the root module's text,
declaring `_names_with_underscore` and `__all__`. -/
def rootEpilogue (names : List String) : String :=
  "\n_names_with_underscore = [" ++ underscoreNamesStr names ++
    "]\n__all__ = [s for s in dir() if not s.startswith(" ++ sq ++ "_" ++ sq ++
    ")]\n__all__.extend([s for s in _names_with_underscore])\n"

/-- Source lines 119-146, `_ModuleInitCodeBuilder.build`.  Returns `none`
when the source would die with an uncaught `KeyError`: line 140 reads
`module_text_map['']`, which fails when no import was ever added to the
root module. -/
def build (b : ModuleInitCodeBuilder) : Option (List (String × String)) :=
  let module_text_map := b.module_imports.map (fun p => (p.1, moduleText p.2))
  match alistLookup module_text_map "" with
  | none => none
  | some root_text =>
      some (alistInsert module_text_map ""
        (root_text ++ rootEpilogue b.underscore_names_in_root))

/-- One export declaration: the argument tuple of one `add_import` call. -/
structure ExportDecl where
  symbol_id : Int
  dest_module_name : String
  source_module_name : String
  source_name : String
  dest_name : String
deriving DecidableEq, Repr

/-- The fully qualified destination name of a declaration. -/
def declFull (d : ExportDecl) : String := fullNameOf d.dest_module_name d.dest_name

/-- The import statement a declaration contributes. -/
def declStmt (d : ExportDecl) : String :=
  format_import d.source_module_name d.source_name d.dest_name

/-- A sequence of `add_import` calls on one builder; the first raised
exception aborts the sequence (as an uncaught Python exception would). -/
def run_adds (b : ModuleInitCodeBuilder) : List ExportDecl → ModuleInitCodeBuilder × Option String
  | [] => (b, none)
  | d :: ds =>
      match add_import b d.symbol_id d.dest_module_name d.source_module_name
          d.source_name d.dest_name with
      | (b2, none) => run_adds b2 ds
      | (b2, some e) => (b2, some e)

/-- The underscore root name a declaration contributes, if any (the condition
of source lines 111-112). -/
def underscoreOf (d : ExportDecl) : Option String :=
  if d.dest_module_name = "" ∧ startsWithChar d.dest_name '_' then some d.dest_name
  else none

/-- Source lines 205-212: the Python accumulator `parent_module`, extended by
one segment: `parent_module += ('.' + seg if parent_module else seg)`. -/
def pyJoinStep (parent seg : String) : String :=
  if parent = "" then seg else parent ++ "." ++ seg

/-- The value of `parent_module` at loop index `i` of the parent-chain loop
(source lines 206-212): the first `i` segments of the module path joined. -/
def parentAt (module : String) (i : Nat) : String :=
  ((pySplitDot module).take i).foldl pyJoinStep ""

/-- The value of `import_from` at loop index `i` (source lines 209-213):
`_OUTPUT_MODULE`, qualified by `parent_module` when `i > 0`. -/
def importFromAt (module : String) (i : Nat) : String :=
  if i > 0 then OUTPUT_MODULE ++ "." ++ parentAt module i else OUTPUT_MODULE

/-- `module_split[i]` (source line 205). -/
def segAt (module : String) (i : Nat) : String := ((pySplitDot module).getD i "")

/-- Source lines 205-216: the sequence of `add_import` argument tuples the
parent-chain loop issues for one destination module: at each index it imports
segment `i` into its parent namespace, from the generated output package
qualified by the parent path, under the no-check sentinel `-1`. -/
def parentChainDecls (module : String) : List ExportDecl :=
  (List.range (pySplitDot module).length).map
    (fun i => ⟨-1, parentAt module i, importFromAt module i, segAt module i, segAt module i⟩)

/-- Source lines 198-216 of `get_api_init_text`: the parent-chain synthesis
over the destination modules seen so far (the iteration order over the
Python `set` is a parameter), skipping the root module. -/
def add_parent_imports (b : ModuleInitCodeBuilder) (modules : List String) :
    ModuleInitCodeBuilder × Option String :=
  run_adds b ((modules.filter (fun m => m ≠ "")).flatMap parentChainDecls)

/-- Source lines 262-263 of `create_api_files`: the report path of a module
missing from the genrule output list,
`'"api/%s/__init__.py"' % module.replace('.', '/')`. -/
def moduleFilePath (module : String) : String :=
  "\"api/" ++ replaceDotSlash module ++ "/__init__.py\""

/-- Source lines 258-265: the `missing_output_files` list — one report path
for every generated module with no registered output file, in generation
order. -/
def missingOutputFiles (module_name_to_file_path module_text_map : List (String × String)) :
    List String :=
  (module_text_map.filter
      (fun p => (alistLookup module_name_to_file_path p.1).isNone)).map
    (fun p => moduleFilePath p.1)

/-- Source lines 258-274: the consistency check of `create_api_files` between
the generated text map and the registered output paths; `.error` carries the
`ValueError` message of lines 270-274. -/
def create_api_files_check (module_name_to_file_path module_text_map : List (String × String)) :
    Except String Unit :=
  let missing_output_files := missingOutputFiles module_name_to_file_path module_text_map
  if missing_output_files.isEmpty then Except.ok ()
  else
    Except.error ("Missing outputs for python_api_gen genrule:\n" ++
      String.intercalate ",\n" (sortStrings missing_output_files) ++
      ".Make sure all required outputs are in the tensorflow/tools/api/generator/BUILD file.")

/-- The candidate-import set recorded for the fully qualified name `full`
in destination module `m` (empty when either level is absent). -/
def importsAt (b : ModuleInitCodeBuilder) (m full : String) : List String :=
  (alistLookup ((alistLookup b.module_imports m).getD []) full).getD []

/-- Whether `import_str` is among the candidate imports recorded for the
fully qualified name `full` in destination module `m`. -/
def hasImport (b : ModuleInitCodeBuilder) (m full import_str : String) : Bool :=
  import_str ∈ importsAt b m full

/-- Whether the fully qualified name `full` has a candidate-import entry in
destination module `m`. -/
def hasName (b : ModuleInitCodeBuilder) (m full : String) : Bool :=
  (alistLookup ((alistLookup b.module_imports m).getD []) full).isSome

/-! ### Association-list lemmas -/

theorem alistLookup_insert_self {α : Type} (l : List (String × α)) (k : String) (v : α) :
    alistLookup (alistInsert l k v) k = some v := by
  induction l with
  | nil => simp [alistInsert, alistLookup]
  | cons p rest ih =>
      by_cases h : p.1 = k
      · simp [alistInsert, alistLookup, h]
      · simpa [alistInsert, alistLookup, h] using ih

theorem alistLookup_insert_ne {α : Type} (l : List (String × α)) (k k2 : String) (v : α)
    (h : k2 ≠ k) : alistLookup (alistInsert l k v) k2 = alistLookup l k2 := by
  induction l with
  | nil => simp [alistInsert, alistLookup, Ne.symm h]
  | cons p rest ih =>
      by_cases hp : p.1 = k
      · subst hp
        have h1 : p.1 ≠ k2 := fun hh => h hh.symm
        simp [alistInsert, alistLookup, h1]
      · by_cases hq : p.1 = k2 <;> simp [alistInsert, alistLookup, hp, hq, h, ih]

theorem mem_of_alistLookup_eq_some {α : Type} {l : List (String × α)} {k : String} {v : α}
    (h : alistLookup l k = some v) : (k, v) ∈ l := by
  induction l with
  | nil => simp [alistLookup] at h
  | cons q rest ih =>
      by_cases hq : q.1 = k
      · simp only [alistLookup, hq, if_pos] at h
        cases h
        exact List.mem_cons.mpr (Or.inl (show (k, q.2) = q by rw [← hq]))
      · simp only [alistLookup, hq, if_neg, not_false_iff] at h
        exact List.mem_cons_of_mem _ (ih h)

theorem alistLookup_eq_some_of_mem_nodup {α : Type} {l : List (String × α)} {p : String × α}
    (nd : (l.map Prod.fst).Nodup) (h : p ∈ l) : alistLookup l p.1 = some p.2 := by
  induction l with
  | nil => simp at h
  | cons q rest ih =>
      simp only [List.map_cons, List.nodup_cons] at nd
      rcases List.mem_cons.mp h with h | h
      · subst h
        simp [alistLookup]
      · have hne : q.1 ≠ p.1 := by
          intro he
          exact nd.1 (he ▸ List.mem_map_of_mem Prod.fst h)
        simp [alistLookup, hne, ih nd.2 h]

theorem alistLookup_isSome_iff_mem_keys {α : Type} (l : List (String × α)) (k : String) :
    (alistLookup l k).isSome = true ↔ k ∈ l.map Prod.fst := by
  induction l with
  | nil => simp [alistLookup]
  | cons p rest ih =>
      by_cases hp : p.1 = k
      · simp [alistLookup, hp]
      · have h1 : k ≠ p.1 := fun hh => hp hh.symm
        simp [alistLookup, hp, ih, h1]

theorem alistLookup_eq_none_iff_not_mem_keys {α : Type} (l : List (String × α)) (k : String) :
    alistLookup l k = none ↔ k ∉ l.map Prod.fst := by
  rw [← alistLookup_isSome_iff_mem_keys]
  cases alistLookup l k <;> simp

theorem mem_keys_alistInsert {α : Type} (l : List (String × α)) (k k2 : String) (v : α) :
    k2 ∈ (alistInsert l k v).map Prod.fst ↔ k2 ∈ l.map Prod.fst ∨ k2 = k := by
  induction l with
  | nil => simp [alistInsert, eq_comm]
  | cons p rest ih =>
      by_cases hp : p.1 = k
      · subst hp
        simp [alistInsert, eq_comm]
        tauto
      · simp [alistInsert, hp, ih]
        tauto

theorem nodup_keys_alistInsert {α : Type} (l : List (String × α)) (k : String) (v : α)
    (nd : (l.map Prod.fst).Nodup) : ((alistInsert l k v).map Prod.fst).Nodup := by
  induction l with
  | nil => simp [alistInsert]
  | cons p rest ih =>
      simp only [List.map_cons, List.nodup_cons] at nd
      by_cases hp : p.1 = k
      · subst hp
        simpa [alistInsert] using nd
      · have he : alistInsert (p :: rest) k v = p :: alistInsert rest k v := by
          simp [alistInsert, hp]
        rw [he, List.map_cons]
        refine List.nodup_cons.mpr ⟨?_, ih nd.2⟩
        intro hmem
        rcases (mem_keys_alistInsert rest k p.1 v).mp hmem with h | h
        · exact nd.1 h
        · exact hp h

theorem alistLookup_map_values {α β : Type} (l : List (String × α)) (g : α → β) (k : String) :
    alistLookup (l.map (fun p => (p.1, g p.2))) k = (alistLookup l k).map g := by
  induction l with
  | nil => simp [alistLookup]
  | cons p rest ih =>
      by_cases hp : p.1 = k
      · simp [alistLookup, hp]
      · simp [alistLookup, hp, ih]

theorem keys_alistInsert_of_mem {α : Type} (l : List (String × α)) (k : String) (v : α)
    (h : k ∈ l.map Prod.fst) :
    (alistInsert l k v).map Prod.fst = l.map Prod.fst := by
  induction l with
  | nil => simp at h
  | cons p rest ih =>
      by_cases hp : p.1 = k
      · simp [alistInsert, hp]
      · have : k ∈ rest.map Prod.fst := by
          rcases List.mem_map.mp h with ⟨q, hq, he⟩
          rcases List.mem_cons.mp hq with hq | hq
          · exact absurd (hq ▸ he) hp
          · exact he ▸ List.mem_map_of_mem Prod.fst hq
        simp [alistInsert, hp, ih this]

/-! ### Set lemmas -/

theorem mem_setAdd (s : List String) (x y : String) :
    y ∈ setAdd s x ↔ y ∈ s ∨ y = x := by
  unfold setAdd
  by_cases h : x ∈ s
  · simp only [if_pos h]
    constructor
    · exact Or.inl
    · rintro (hy | rfl) <;> assumption
  · simp [if_neg h]

theorem setAdd_ne_nil (s : List String) (x : String) : setAdd s x ≠ [] := by
  unfold setAdd
  by_cases h : x ∈ s
  · simp only [if_pos h]
    exact fun he => by simp [he] at h
  · simp [if_neg h]

/-! ### The string order -/

theorem charListLt_irrefl : ∀ l : List Char, charListLt l l = false
  | [] => rfl
  | _ :: as => by simp [charListLt, charListLt_irrefl as]

theorem char_eq_of_toNat_eq {a b : Char} (h : a.toNat = b.toNat) : a = b :=
  Char.eq_of_val_eq (UInt32.ext h)

theorem charListLt_trans : ∀ {l1 l2 l3 : List Char}, charListLt l1 l2 = true →
    charListLt l2 l3 = true → charListLt l1 l3 = true
  | [], [], _, h1, _ => by simp [charListLt] at h1
  | [], _ :: _, [], _, h2 => by simp [charListLt] at h2
  | [], _ :: _, _ :: _, _, _ => rfl
  | _ :: _, [], _, h1, _ => by simp [charListLt] at h1
  | _ :: _, _ :: _, [], _, h2 => by simp [charListLt] at h2
  | a :: as, b :: bs, c :: cs, h1, h2 => by
      simp only [charListLt] at h1 h2 ⊢
      by_cases hab : a = b
      · subst hab
        simp only [if_pos rfl] at h1
        by_cases hbc : a = c
        · subst hbc
          simp only [if_pos rfl] at h2 ⊢
          exact charListLt_trans h1 h2
        · simpa [hbc] using h2
      · simp only [if_neg hab, decide_eq_true_eq] at h1
        by_cases hbc : b = c
        · subst hbc
          simpa [hab] using h1
        · simp only [if_neg hbc, decide_eq_true_eq] at h2
          have hac : a.toNat < c.toNat := Nat.lt_trans h1 h2
          have hne : a ≠ c := by
            intro he
            subst he
            exact Nat.lt_irrefl _ hac
          simp [hne, hac]

theorem charListLt_trichotomy : ∀ l1 l2 : List Char,
    charListLt l1 l2 = true ∨ charListLt l2 l1 = true ∨ l1 = l2
  | [], [] => Or.inr (Or.inr rfl)
  | [], _ :: _ => Or.inl rfl
  | _ :: _, [] => Or.inr (Or.inl rfl)
  | a :: as, b :: bs => by
      by_cases hab : a = b
      · subst hab
        rcases charListLt_trichotomy as bs with h | h | h
        · exact Or.inl (by simp [charListLt, h])
        · exact Or.inr (Or.inl (by simp [charListLt, h]))
        · exact Or.inr (Or.inr (by rw [h]))
      · rcases Nat.lt_trichotomy a.toNat b.toNat with h | h | h
        · exact Or.inl (by simp [charListLt, hab, h])
        · exact absurd (char_eq_of_toNat_eq h) hab
        · have hba : b ≠ a := fun he => hab he.symm
          exact Or.inr (Or.inl (by simp [charListLt, hba, h]))

theorem strLe_refl (a : String) : strLeP a a := by
  simp [strLeP, strLe]

theorem strLe_total (a b : String) : strLeP a b ∨ strLeP b a := by
  rcases charListLt_trichotomy a.data b.data with h | h | h
  · exact Or.inl (by simp [strLeP, strLe, h])
  · exact Or.inr (by simp [strLeP, strLe, h])
  · have : a = b := String.ext h
    exact Or.inl (this ▸ strLe_refl a)

theorem strLe_trans {a b c : String} (h1 : strLeP a b) (h2 : strLeP b c) : strLeP a c := by
  simp only [strLeP, strLe, Bool.or_eq_true, decide_eq_true_eq] at h1 h2 ⊢
  rcases h1 with h1 | rfl
  · rcases h2 with h2 | rfl
    · exact Or.inl (charListLt_trans h1 h2)
    · exact Or.inl h1
  · exact h2

theorem strLe_antisymm {a b : String} (h1 : strLeP a b) (h2 : strLeP b a) : a = b := by
  simp only [strLeP, strLe, Bool.or_eq_true, decide_eq_true_eq] at h1 h2
  rcases h1 with h1 | rfl
  · rcases h2 with h2 | rfl
    · have := charListLt_trans h1 h2
      rw [charListLt_irrefl] at this
      exact absurd this (by simp)
    · rfl
  · rfl

instance : IsTotal String strLeP := ⟨strLe_total⟩

instance : IsTrans String strLeP := ⟨fun _ _ _ => strLe_trans⟩

instance : IsAntisymm String strLeP := ⟨fun _ _ => strLe_antisymm⟩

instance : IsRefl String strLeP := ⟨strLe_refl⟩

/-! ### Sorting lemmas -/

theorem sortStrings_perm (l : List String) : (sortStrings l).Perm l :=
  List.perm_insertionSort strLeP l

theorem sortStrings_sorted (l : List String) : List.Sorted strLeP (sortStrings l) :=
  List.sorted_insertionSort strLeP l

theorem sortStrings_eq_of_perm {l1 l2 : List String} (h : l1.Perm l2) :
    sortStrings l1 = sortStrings l2 :=
  List.eq_of_perm_of_sorted ((sortStrings_perm l1).trans (h.trans (sortStrings_perm l2).symm))
    (sortStrings_sorted l1) (sortStrings_sorted l2)

theorem pickImport_mem {l : List String} (h : l ≠ []) : pickImport l ∈ l := by
  have hne : sortStrings l ≠ [] := by
    intro he
    exact h ((sortStrings_perm l).symm.trans (he ▸ List.Perm.refl _)).eq_nil
  rcases hs : sortStrings l with _ | ⟨a, t⟩
  · exact absurd hs hne
  · have : a ∈ sortStrings l := hs ▸ List.mem_cons_self a t
    have hmem := (sortStrings_perm l).subset this
    simpa [pickImport, hs] using hmem

theorem pickImport_least {l : List String} {x : String} (h : x ∈ l) :
    strLeP (pickImport l) x := by
  have hx : x ∈ sortStrings l := (sortStrings_perm l).symm.subset h
  rcases hs : sortStrings l with _ | ⟨a, t⟩
  · rw [hs] at hx
    simp at hx
  · rw [hs] at hx
    have hsort := sortStrings_sorted l
    rw [hs] at hsort
    rcases List.mem_cons.mp hx with rfl | hx
    · simpa [pickImport, hs] using strLe_refl x
    · simpa [pickImport, hs] using List.rel_of_sorted_cons hsort x hx

theorem pickImport_congr {l1 l2 : List String} (h : ∀ x, x ∈ l1 ↔ x ∈ l2) :
    pickImport l1 = pickImport l2 := by
  rcases h1 : l1 with _ | ⟨a, t⟩
  · have h2 : l2 = [] := by
      rw [List.eq_nil_iff_forall_not_mem]
      intro x hx
      rw [h1] at h
      simp [← h x] at hx
    rw [h2]
  · have hne1 : l1 ≠ [] := by simp [h1]
    have hne2 : l2 ≠ [] := by
      intro he
      have := (h a).mp (h1 ▸ List.mem_cons_self a t)
      simp [he] at this
    rw [← h1] at *
    exact strLe_antisymm
      (pickImport_least ((h (pickImport l2)).mpr (pickImport_mem hne2)))
      (pickImport_least ((h (pickImport l1)).mp (pickImport_mem hne1)))

/-! ### Lemmas about a single `add_import` call -/

theorem raisesCheck_neg_one (ids : List (String × Int)) (f : String) :
    raisesCheck ids (-1) f = false := by
  unfold raisesCheck
  cases alistLookup ids f <;> simp

theorem add_import_sentinel (b : ModuleInitCodeBuilder) (dm sm sn dn : String) :
    add_import b (-1) dm sm sn dn =
      (record b (-1) dm (fullNameOf dm dn) (format_import sm sn dn) dn, none) := by
  simp [add_import, raisesCheck_neg_one]

theorem add_import_of_raises (b : ModuleInitCodeBuilder) (sid : Int) (dm sm sn dn : String)
    (h : raisesCheck b.dest_import_to_id sid (fullNameOf dm dn) = true) :
    add_import b sid dm sm sn dn =
      (b, some ("Trying to export multiple symbols with same name: " ++
        fullNameOf dm dn ++ ".")) := by
  simp [add_import, h]

theorem add_import_of_not_raises (b : ModuleInitCodeBuilder) (sid : Int) (dm sm sn dn : String)
    (h : raisesCheck b.dest_import_to_id sid (fullNameOf dm dn) = false) :
    add_import b sid dm sm sn dn =
      (record b sid dm (fullNameOf dm dn) (format_import sm sn dn) dn, none) := by
  simp [add_import, h]

theorem add_import_ok_eq {b b1 : ModuleInitCodeBuilder} {sid : Int} {dm sm sn dn : String}
    (h : add_import b sid dm sm sn dn = (b1, none)) :
    b1 = record b sid dm (fullNameOf dm dn) (format_import sm sn dn) dn := by
  by_cases hr : raisesCheck b.dest_import_to_id sid (fullNameOf dm dn) = true
  · rw [add_import_of_raises b sid dm sm sn dn hr] at h
    simp at h
  · rw [add_import_of_not_raises b sid dm sm sn dn (by simpa using hr)] at h
    exact (Prod.ext_iff.mp h).1.symm

theorem importsAt_record (b : ModuleInitCodeBuilder) (sid : Int)
    (dm full stmt dn m f : String) :
    importsAt (record b sid dm full stmt dn) m f =
      if m = dm ∧ f = full then setAdd (importsAt b dm full) stmt
      else importsAt b m f := by
  unfold importsAt record
  by_cases hm : m = dm
  · subst hm
    rw [alistLookup_insert_self]
    by_cases hf : f = full
    · subst hf
      simp [alistLookup_insert_self]
    · rw [Option.getD_some, alistLookup_insert_ne _ _ _ _ hf]
      simp [hf]
  · rw [alistLookup_insert_ne _ _ _ _ hm]
    simp [hm]

theorem hasImport_record (b : ModuleInitCodeBuilder) (sid : Int)
    (dm full stmt dn m f s : String) :
    hasImport (record b sid dm full stmt dn) m f s = true ↔
      hasImport b m f s = true ∨ (m = dm ∧ f = full ∧ s = stmt) := by
  simp only [hasImport, decide_eq_true_eq, importsAt_record]
  by_cases h : m = dm ∧ f = full
  · rw [if_pos h]
    rcases h with ⟨rfl, rfl⟩
    simp only [mem_setAdd]
    tauto
  · rw [if_neg h]
    tauto

theorem hasName_record (b : ModuleInitCodeBuilder) (sid : Int)
    (dm full stmt dn m f : String) :
    hasName (record b sid dm full stmt dn) m f = true ↔
      hasName b m f = true ∨ (m = dm ∧ f = full) := by
  unfold hasName record
  by_cases hm : m = dm
  · subst hm
    rw [alistLookup_insert_self]
    by_cases hf : f = full
    · subst hf
      simp [alistLookup_insert_self]
    · rw [Option.getD_some, alistLookup_insert_ne _ _ _ _ hf]
      simp [hf]
  · rw [alistLookup_insert_ne _ _ _ _ hm]
    simp [hm]

theorem mem_keys_record (b : ModuleInitCodeBuilder) (sid : Int)
    (dm full stmt dn m : String) :
    m ∈ (record b sid dm full stmt dn).module_imports.map Prod.fst ↔
      m ∈ b.module_imports.map Prod.fst ∨ m = dm := by
  unfold record
  exact mem_keys_alistInsert _ _ _ _

theorem underscore_record (b : ModuleInitCodeBuilder) (sid : Int)
    (dm full stmt dn : String) :
    (record b sid dm full stmt dn).underscore_names_in_root =
      b.underscore_names_in_root ++
        (if dm = "" ∧ startsWithChar dn '_' then [dn] else []) := by
  unfold record
  by_cases h : dm = "" ∧ startsWithChar dn '_' = true <;> simp [h]

theorem id_lookup_record_self (b : ModuleInitCodeBuilder) (sid : Int)
    (dm full stmt dn : String) :
    alistLookup (record b sid dm full stmt dn).dest_import_to_id full = some sid := by
  unfold record
  exact alistLookup_insert_self _ _ _

theorem id_lookup_record_ne (b : ModuleInitCodeBuilder) (sid : Int)
    (dm full stmt dn f : String) (h : f ≠ full) :
    alistLookup (record b sid dm full stmt dn).dest_import_to_id f =
      alistLookup b.dest_import_to_id f := by
  unfold record
  exact alistLookup_insert_ne _ _ _ _ h

/-- The two no-duplicate-keys invariants of the builder's nested dicts. -/
def NodupState (b : ModuleInitCodeBuilder) : Prop :=
  (b.module_imports.map Prod.fst).Nodup ∧
    ∀ p ∈ b.module_imports, (p.2.map Prod.fst).Nodup

theorem mem_alistInsert {α : Type} {l : List (String × α)} {k : String} {v : α}
    {q : String × α} (h : q ∈ alistInsert l k v) : q ∈ l ∨ q = (k, v) := by
  induction l with
  | nil => simpa [alistInsert] using h
  | cons p rest ih =>
      by_cases hp : p.1 = k
      · simp only [alistInsert, hp, if_pos] at h
        rcases List.mem_cons.mp h with h | h
        · exact Or.inr h
        · exact Or.inl (List.mem_cons_of_mem _ h)
      · simp only [alistInsert, hp, if_neg, not_false_iff] at h
        rcases List.mem_cons.mp h with h | h
        · exact Or.inl (h ▸ List.mem_cons_self _ _)
        · rcases ih h with h | h
          · exact Or.inl (List.mem_cons_of_mem _ h)
          · exact Or.inr h

theorem nodupState_record (b : ModuleInitCodeBuilder) (sid : Int)
    (dm full stmt dn : String) (h : NodupState b) :
    NodupState (record b sid dm full stmt dn) := by
  constructor
  · unfold record
    exact nodup_keys_alistInsert _ _ _ h.1
  · intro p hp
    unfold record at hp
    rcases mem_alistInsert hp with hp | rfl
    · exact h.2 p hp
    · apply nodup_keys_alistInsert
      cases hi : alistLookup b.module_imports dm with
      | none => simp
      | some inner =>
          simpa using h.2 (dm, inner) (mem_of_alistLookup_eq_some hi)

theorem nodupState_init : NodupState init := by
  constructor <;> simp [init]

/-! ### Lemmas about sequences of `add_import` calls -/

theorem run_adds_append (b : ModuleInitCodeBuilder) (l1 l2 : List ExportDecl) :
    run_adds b (l1 ++ l2) =
      match run_adds b l1 with
      | (b1, none) => run_adds b1 l2
      | (b1, some e) => (b1, some e) := by
  induction l1 generalizing b with
  | nil => simp [run_adds]
  | cons d ds ih =>
      rcases ha : add_import b d.symbol_id d.dest_module_name d.source_module_name
          d.source_name d.dest_name with ⟨b1, o⟩
      cases o <;> simp [run_adds, ha, ih]

theorem run_adds_sentinel (b : ModuleInitCodeBuilder) (ds : List ExportDecl)
    (h : ∀ d ∈ ds, d.symbol_id = -1) : (run_adds b ds).2 = none := by
  induction ds generalizing b with
  | nil => simp [run_adds]
  | cons d ds ih =>
      have hd : d.symbol_id = -1 := h d (List.mem_cons_self d ds)
      have ha := add_import_sentinel b d.dest_module_name d.source_module_name
        d.source_name d.dest_name
      rw [run_adds, hd, ha]
      exact ih _ (fun d2 h2 => h d2 (List.mem_cons_of_mem d h2))

theorem run_adds_hasImport {ds : List ExportDecl} {b : ModuleInitCodeBuilder}
    (h : (run_adds b ds).2 = none) (m f s : String) :
    hasImport (run_adds b ds).1 m f s = true ↔
      hasImport b m f s = true ∨
        ∃ d ∈ ds, d.dest_module_name = m ∧ declFull d = f ∧ declStmt d = s := by
  induction ds generalizing b with
  | nil => simp [run_adds]
  | cons d ds ih =>
      rcases ha : add_import b d.symbol_id d.dest_module_name d.source_module_name
          d.source_name d.dest_name with ⟨b1, o⟩
      cases o with
      | some e =>
          rw [run_adds, ha] at h
          simp at h
      | none =>
          rw [run_adds, ha] at h ⊢
          simp only at h ⊢
          rw [ih h]
          have hb1 := add_import_ok_eq ha
          subst hb1
          rw [hasImport_record]
          simp only [List.mem_cons, declFull, declStmt]
          constructor
          · rintro ((hb | ⟨rfl, rfl, rfl⟩) | ⟨d2, hd2, he⟩)
            · exact Or.inl hb
            · exact Or.inr ⟨d, Or.inl rfl, rfl, rfl, rfl⟩
            · exact Or.inr ⟨d2, Or.inr hd2, he⟩
          · rintro (hb | ⟨d2, hd2 | hd2, he⟩)
            · exact Or.inl (Or.inl hb)
            · subst hd2
              exact Or.inl (Or.inr ⟨he.1.symm, he.2.1.symm, he.2.2.symm⟩)
            · exact Or.inr ⟨d2, hd2, he⟩

theorem run_adds_hasName {ds : List ExportDecl} {b : ModuleInitCodeBuilder}
    (h : (run_adds b ds).2 = none) (m f : String) :
    hasName (run_adds b ds).1 m f = true ↔
      hasName b m f = true ∨ ∃ d ∈ ds, d.dest_module_name = m ∧ declFull d = f := by
  induction ds generalizing b with
  | nil => simp [run_adds]
  | cons d ds ih =>
      rcases ha : add_import b d.symbol_id d.dest_module_name d.source_module_name
          d.source_name d.dest_name with ⟨b1, o⟩
      cases o with
      | some e =>
          rw [run_adds, ha] at h
          simp at h
      | none =>
          rw [run_adds, ha] at h ⊢
          simp only at h ⊢
          rw [ih h]
          have hb1 := add_import_ok_eq ha
          subst hb1
          rw [hasName_record]
          simp only [List.mem_cons, declFull]
          constructor
          · rintro ((hb | ⟨rfl, rfl⟩) | ⟨d2, hd2, he⟩)
            · exact Or.inl hb
            · exact Or.inr ⟨d, Or.inl rfl, rfl, rfl⟩
            · exact Or.inr ⟨d2, Or.inr hd2, he⟩
          · rintro (hb | ⟨d2, hd2 | hd2, he⟩)
            · exact Or.inl (Or.inl hb)
            · subst hd2
              exact Or.inl (Or.inr ⟨he.1.symm, he.2.symm⟩)
            · exact Or.inr ⟨d2, hd2, he⟩

theorem run_adds_mem_keys {ds : List ExportDecl} {b : ModuleInitCodeBuilder}
    (h : (run_adds b ds).2 = none) (m : String) :
    m ∈ (run_adds b ds).1.module_imports.map Prod.fst ↔
      m ∈ b.module_imports.map Prod.fst ∨ ∃ d ∈ ds, d.dest_module_name = m := by
  induction ds generalizing b with
  | nil => simp [run_adds]
  | cons d ds ih =>
      rcases ha : add_import b d.symbol_id d.dest_module_name d.source_module_name
          d.source_name d.dest_name with ⟨b1, o⟩
      cases o with
      | some e =>
          rw [run_adds, ha] at h
          simp at h
      | none =>
          rw [run_adds, ha] at h ⊢
          simp only at h ⊢
          rw [ih h]
          have hb1 := add_import_ok_eq ha
          subst hb1
          rw [mem_keys_record]
          simp only [List.mem_cons]
          constructor
          · rintro ((hb | rfl) | ⟨d2, hd2, he⟩)
            · exact Or.inl hb
            · exact Or.inr ⟨d, Or.inl rfl, rfl⟩
            · exact Or.inr ⟨d2, Or.inr hd2, he⟩
          · rintro (hb | ⟨d2, hd2 | hd2, he⟩)
            · exact Or.inl (Or.inl hb)
            · subst hd2
              exact Or.inl (Or.inr he.symm)
            · exact Or.inr ⟨d2, hd2, he⟩

theorem run_adds_underscore {ds : List ExportDecl} {b : ModuleInitCodeBuilder}
    (h : (run_adds b ds).2 = none) :
    (run_adds b ds).1.underscore_names_in_root =
      b.underscore_names_in_root ++ ds.filterMap underscoreOf := by
  induction ds generalizing b with
  | nil => simp [run_adds]
  | cons d ds ih =>
      rcases ha : add_import b d.symbol_id d.dest_module_name d.source_module_name
          d.source_name d.dest_name with ⟨b1, o⟩
      cases o with
      | some e =>
          rw [run_adds, ha] at h
          simp at h
      | none =>
          rw [run_adds, ha] at h ⊢
          simp only at h ⊢
          rw [ih h]
          have hb1 := add_import_ok_eq ha
          subst hb1
          rw [underscore_record, List.filterMap_cons]
          by_cases hc : d.dest_module_name = "" ∧ startsWithChar d.dest_name '_' = true
          · simp [underscoreOf, hc, List.append_assoc]
          · simp [underscoreOf, hc]

theorem run_adds_nodup {ds : List ExportDecl} {b : ModuleInitCodeBuilder}
    (h : NodupState b) : NodupState (run_adds b ds).1 := by
  induction ds generalizing b with
  | nil => simpa [run_adds]
  | cons d ds ih =>
      rcases ha : add_import b d.symbol_id d.dest_module_name d.source_module_name
          d.source_name d.dest_name with ⟨b1, o⟩
      cases o with
      | some e =>
          rw [run_adds, ha]
          by_cases hr : raisesCheck b.dest_import_to_id d.symbol_id
              (fullNameOf d.dest_module_name d.dest_name) = true
          · rw [add_import_of_raises _ _ _ _ _ _ hr] at ha
            cases ha
            exact h
          · rw [add_import_of_not_raises _ _ _ _ _ _ (by simpa using hr)] at ha
            simp at ha
      | none =>
          rw [run_adds, ha]
          simp only
          have hb1 := add_import_ok_eq ha
          subst hb1
          exact ih (nodupState_record _ _ _ _ _ _ h)

/-! ### The recorded-identity invariant -/

theorem add_import_ok_check {b b1 : ModuleInitCodeBuilder} {sid : Int} {dm sm sn dn : String}
    (ha : add_import b sid dm sm sn dn = (b1, none)) :
    raisesCheck b.dest_import_to_id sid (fullNameOf dm dn) = false := by
  by_cases hr : raisesCheck b.dest_import_to_id sid (fullNameOf dm dn) = true
  · rw [add_import_of_raises b sid dm sm sn dn hr] at ha
    simp at ha
  · simpa using hr

theorem raisesCheck_false_of_some {ids : List (String × Int)} {sid : Int} {F : String}
    {r : Int} (hl : alistLookup ids F = some r) (h : raisesCheck ids sid F = false) :
    sid = r ∨ sid = -1 := by
  unfold raisesCheck at h
  rw [hl] at h
  rcases Bool.and_eq_false_iff.mp h with h | h
  · exact Or.inl (by simpa using h)
  · exact Or.inr (by simpa using h)

theorem raisesCheck_true_of_some {ids : List (String × Int)} {sid : Int} {F : String}
    {r : Int} (hl : alistLookup ids F = some r) (h1 : sid ≠ r) (h2 : sid ≠ -1) :
    raisesCheck ids sid F = true := by
  unfold raisesCheck
  rw [hl]
  simp [h1, h2]

/-- The invariant used for conflict detection over call sequences: the
identity recorded for `F` is either `i1` or the sentinel. -/
def IdInv (b : ModuleInitCodeBuilder) (F : String) (i1 : Int) : Prop :=
  ∃ r, alistLookup b.dest_import_to_id F = some r ∧ (r = i1 ∨ r = -1)

theorem add_import_preserves_idInv {b b1 : ModuleInitCodeBuilder} {sid : Int}
    {dm sm sn dn F : String} {i1 : Int} (hinv : IdInv b F i1)
    (ha : add_import b sid dm sm sn dn = (b1, none)) : IdInv b1 F i1 := by
  have hck := add_import_ok_check ha
  have hb1 := add_import_ok_eq ha
  subst hb1
  rcases hinv with ⟨r, hr, hcase⟩
  by_cases hF : F = fullNameOf dm dn
  · subst hF
    refine ⟨sid, id_lookup_record_self _ _ _ _ _ _, ?_⟩
    rcases raisesCheck_false_of_some hr hck with rfl | rfl
    · exact hcase
    · exact Or.inr rfl
  · refine ⟨r, ?_, hcase⟩
    rw [id_lookup_record_ne _ _ _ _ _ _ _ hF]
    exact hr

theorem run_adds_preserves_idInv {ds : List ExportDecl} {b : ModuleInitCodeBuilder}
    {F : String} {i1 : Int} (hinv : IdInv b F i1) (h : (run_adds b ds).2 = none) :
    IdInv (run_adds b ds).1 F i1 := by
  induction ds generalizing b with
  | nil => simpa [run_adds]
  | cons d ds ih =>
      rcases ha : add_import b d.symbol_id d.dest_module_name d.source_module_name
          d.source_name d.dest_name with ⟨b1, o⟩
      cases o with
      | some e =>
          rw [run_adds, ha] at h
          simp at h
      | none =>
          rw [run_adds, ha] at h ⊢
          simp only at h ⊢
          exact ih (add_import_preserves_idInv hinv ha) h

theorem run_adds_append_ok {b : ModuleInitCodeBuilder} {l1 l2 : List ExportDecl}
    (h : (run_adds b (l1 ++ l2)).2 = none) :
    (run_adds b l1).2 = none ∧
      run_adds b (l1 ++ l2) = run_adds (run_adds b l1).1 l2 := by
  rw [run_adds_append] at h ⊢
  rcases h1 : run_adds b l1 with ⟨bA, o1⟩
  cases o1 with
  | none => exact ⟨rfl, rfl⟩
  | some e =>
      rw [h1] at h
      exact Option.noConfusion h

theorem run_adds_cons_ok {b : ModuleInitCodeBuilder} {d : ExportDecl} {ds : List ExportDecl}
    (h : (run_adds b (d :: ds)).2 = none) :
    ∃ b1, add_import b d.symbol_id d.dest_module_name d.source_module_name d.source_name
        d.dest_name = (b1, none) ∧ run_adds b (d :: ds) = run_adds b1 ds := by
  rcases ha : add_import b d.symbol_id d.dest_module_name d.source_module_name d.source_name
      d.dest_name with ⟨b1, o⟩
  cases o with
  | none =>
      refine ⟨b1, rfl, ?_⟩
      rw [run_adds, ha]
  | some e =>
      rw [run_adds, ha] at h
      exact Option.noConfusion h

theorem run_adds_idInv_of_mem {ds : List ExportDecl} {d1 : ExportDecl}
    (h : (run_adds init ds).2 = none) (hd1 : d1 ∈ ds) :
    IdInv (run_adds init ds).1 (declFull d1) d1.symbol_id := by
  rcases List.append_of_mem hd1 with ⟨l1, l2, rfl⟩
  rcases run_adds_append_ok h with ⟨h1, he⟩
  rw [he] at h ⊢
  rcases run_adds_cons_ok h with ⟨bB, ha, he2⟩
  rw [he2] at h ⊢
  have hest : IdInv bB (declFull d1) d1.symbol_id := by
    have hb1 := add_import_ok_eq ha
    subst hb1
    exact ⟨d1.symbol_id, id_lookup_record_self _ _ _ _ _ _, Or.inl rfl⟩
  exact run_adds_preserves_idInv hest h

/-! ### Lemmas about `build` -/

theorem build_eq_none_iff (b : ModuleInitCodeBuilder) :
    build b = none ↔ alistLookup b.module_imports "" = none := by
  simp only [build]
  rw [alistLookup_map_values]
  cases alistLookup b.module_imports "" <;> simp

theorem build_of_root {b : ModuleInitCodeBuilder} {inner : List (String × List String)}
    (h : alistLookup b.module_imports "" = some inner) :
    build b = some (alistInsert (b.module_imports.map (fun p => (p.1, moduleText p.2))) ""
      (moduleText inner ++ rootEpilogue b.underscore_names_in_root)) := by
  simp only [build]
  rw [alistLookup_map_values, h]
  rfl

/-- The per-module generated text, as looked up in the result of `build`. -/
def buildLookup (b : ModuleInitCodeBuilder) (m : String) : Option String :=
  match build b with
  | none => none
  | some out => alistLookup out m

theorem buildLookup_eq {b : ModuleInitCodeBuilder} {inner : List (String × List String)}
    (h : alistLookup b.module_imports "" = some inner) (m : String) :
    buildLookup b m =
      if m = "" then some (moduleText inner ++ rootEpilogue b.underscore_names_in_root)
      else (alistLookup b.module_imports m).map moduleText := by
  unfold buildLookup
  rw [build_of_root h]
  by_cases hm : m = ""
  · subst hm
    simp [alistLookup_insert_self]
  · simp only [if_neg hm]
    rw [alistLookup_insert_ne _ _ _ _ hm, alistLookup_map_values]

/-! ### Order-independence of the generated per-module text -/

theorem hasName_of_lookup {b : ModuleInitCodeBuilder} {m : String}
    {inner : List (String × List String)} (h : alistLookup b.module_imports m = some inner)
    (f : String) : hasName b m f = (alistLookup inner f).isSome := by
  unfold hasName
  rw [h]
  rfl

theorem importsAt_of_lookup {b : ModuleInitCodeBuilder} {m : String}
    {inner : List (String × List String)} (h : alistLookup b.module_imports m = some inner)
    (f : String) : importsAt b m f = (alistLookup inner f).getD [] := by
  unfold importsAt
  rw [h]
  rfl

theorem moduleText_congr {inner1 inner2 : List (String × List String)}
    (nd1 : (inner1.map Prod.fst).Nodup) (nd2 : (inner2.map Prod.fst).Nodup)
    (hkeys : ∀ f, (alistLookup inner1 f).isSome = true ↔ (alistLookup inner2 f).isSome = true)
    (hmem : ∀ f s1 s2 x, alistLookup inner1 f = some s1 → alistLookup inner2 f = some s2 →
      (x ∈ s1 ↔ x ∈ s2)) :
    moduleText inner1 = moduleText inner2 := by
  unfold moduleText
  congr 1
  apply sortStrings_eq_of_perm
  have hnd1 : (inner1.map (fun p => (p.1, pickImport p.2))).Nodup := by
    apply List.Nodup.of_map Prod.fst
    simpa [List.map_map, Function.comp] using nd1
  have hnd2 : (inner2.map (fun p => (p.1, pickImport p.2))).Nodup := by
    apply List.Nodup.of_map Prod.fst
    simpa [List.map_map, Function.comp] using nd2
  have hpairs : (inner1.map (fun p => (p.1, pickImport p.2))).Perm
      (inner2.map (fun p => (p.1, pickImport p.2))) := by
    rw [List.perm_ext_iff_of_nodup hnd1 hnd2]
    intro q
    simp only [List.mem_map]
    constructor
    · rintro ⟨p, hp, rfl⟩
      have hl1 := alistLookup_eq_some_of_mem_nodup nd1 hp
      have hs2 : (alistLookup inner2 p.1).isSome = true :=
        (hkeys p.1).mp (by simp [hl1])
      rcases Option.isSome_iff_exists.mp hs2 with ⟨s2, hl2⟩
      refine ⟨(p.1, s2), mem_of_alistLookup_eq_some hl2, ?_⟩
      have hpk : pickImport s2 = pickImport p.2 :=
        (pickImport_congr (fun x => hmem p.1 p.2 s2 x hl1 hl2)).symm
      simp [hpk]
    · rintro ⟨p, hp, rfl⟩
      have hl2 := alistLookup_eq_some_of_mem_nodup nd2 hp
      have hs1 : (alistLookup inner1 p.1).isSome = true :=
        (hkeys p.1).mpr (by simp [hl2])
      rcases Option.isSome_iff_exists.mp hs1 with ⟨s1, hl1⟩
      refine ⟨(p.1, s1), mem_of_alistLookup_eq_some hl1, ?_⟩
      have hpk : pickImport s1 = pickImport p.2 :=
        pickImport_congr (fun x => hmem p.1 s1 p.2 x hl1 hl2)
      simp [hpk]
  have hm := hpairs.map Prod.snd
  simpa [List.map_map, Function.comp] using hm

theorem buildLookup_congr {b1 b2 : ModuleInitCodeBuilder}
    (nd1 : NodupState b1) (nd2 : NodupState b2)
    (hkeys : ∀ m, m ∈ b1.module_imports.map Prod.fst ↔ m ∈ b2.module_imports.map Prod.fst)
    (hnames : ∀ m f, hasName b1 m f = true ↔ hasName b2 m f = true)
    (himp : ∀ m f s, hasImport b1 m f s = true ↔ hasImport b2 m f s = true)
    (hund : b1.underscore_names_in_root = b2.underscore_names_in_root)
    (m : String) : buildLookup b1 m = buildLookup b2 m := by
  have hmt : ∀ m' inner1 inner2, alistLookup b1.module_imports m' = some inner1 →
      alistLookup b2.module_imports m' = some inner2 →
      moduleText inner1 = moduleText inner2 := by
    intro m' inner1 inner2 hi1 hi2
    apply moduleText_congr
    · simpa using nd1.2 (m', inner1) (mem_of_alistLookup_eq_some hi1)
    · simpa using nd2.2 (m', inner2) (mem_of_alistLookup_eq_some hi2)
    · intro f
      have hn := hnames m' f
      rw [hasName_of_lookup hi1, hasName_of_lookup hi2] at hn
      exact hn
    · intro f s1 s2 x hs1 hs2
      have hi := himp m' f x
      unfold hasImport at hi
      rw [importsAt_of_lookup hi1, importsAt_of_lookup hi2, hs1, hs2] at hi
      simpa using hi
  cases h1 : alistLookup b1.module_imports "" with
  | none =>
      have h2 : alistLookup b2.module_imports "" = none := by
        rw [alistLookup_eq_none_iff_not_mem_keys] at h1 ⊢
        rw [← hkeys]
        exact h1
      unfold buildLookup
      rw [(build_eq_none_iff b1).mpr h1, (build_eq_none_iff b2).mpr h2]
  | some r1 =>
      have h2s : (alistLookup b2.module_imports "").isSome = true := by
        rw [alistLookup_isSome_iff_mem_keys, ← hkeys, ← alistLookup_isSome_iff_mem_keys]
        simp [h1]
      rcases Option.isSome_iff_exists.mp h2s with ⟨r2, h2⟩
      rw [buildLookup_eq h1 m, buildLookup_eq h2 m]
      by_cases hm : m = ""
      · subst hm
        rw [if_pos rfl, if_pos rfl, hmt "" r1 r2 h1 h2, hund]
      · simp only [if_neg hm]
        cases hm1 : alistLookup b1.module_imports m with
        | none =>
            have hm2 : alistLookup b2.module_imports m = none := by
              rw [alistLookup_eq_none_iff_not_mem_keys] at hm1 ⊢
              rw [← hkeys]
              exact hm1
            rw [hm2]
        | some i1 =>
            have hm2s : (alistLookup b2.module_imports m).isSome = true := by
              rw [alistLookup_isSome_iff_mem_keys, ← hkeys,
                ← alistLookup_isSome_iff_mem_keys]
              simp [hm1]
            rcases Option.isSome_iff_exists.mp hm2s with ⟨i2, hm2⟩
            rw [hm2]
            exact congrArg some (hmt m i1 i2 hm1 hm2)

theorem hasName_init (m f : String) : hasName init m f = false := rfl

theorem hasImport_init (m f s : String) : hasImport init m f s = false := rfl

theorem exists_mem_perm {α : Type} {l1 l2 : List α} (h : l1.Perm l2) (p : α → Prop) :
    (∃ d ∈ l1, p d) ↔ ∃ d ∈ l2, p d :=
  ⟨fun ⟨d, hd, hp⟩ => ⟨d, h.subset hd, hp⟩, fun ⟨d, hd, hp⟩ => ⟨d, h.symm.subset hd, hp⟩⟩

theorem run_adds_buildLookup_perm {ds1 ds2 : List ExportDecl}
    (hperm : ds1.Perm ds2)
    (h1 : (run_adds init ds1).2 = none) (h2 : (run_adds init ds2).2 = none)
    (hund : ds1.filterMap underscoreOf = ds2.filterMap underscoreOf) (m : String) :
    buildLookup (run_adds init ds1).1 m = buildLookup (run_adds init ds2).1 m := by
  apply buildLookup_congr (run_adds_nodup nodupState_init) (run_adds_nodup nodupState_init)
  · intro m'
    rw [run_adds_mem_keys h1, run_adds_mem_keys h2]
    simp only [init, List.map_nil, List.not_mem_nil, false_or]
    exact exists_mem_perm hperm _
  · intro m' f
    rw [run_adds_hasName h1, run_adds_hasName h2, hasName_init]
    simp only [Bool.false_eq_true, false_or]
    exact exists_mem_perm hperm _
  · intro m' f s
    rw [run_adds_hasImport h1, run_adds_hasImport h2, hasImport_init]
    simp only [Bool.false_eq_true, false_or]
    exact exists_mem_perm hperm _
  · rw [run_adds_underscore h1, run_adds_underscore h2, hund]

/-! ### The claims -/

/-- C7: `format_import` is a pure total function of the triple
(source module, source name, destination name) satisfying all four cases:
with a non-empty source module it returns `from M import S` when the names
agree and `from M import S as D` when they differ; with an empty source
module it returns `import S`, respectively `import S as D`. -/
theorem claim_C7_format_import_cases (source_module_name source_name dest_name : String) :
    (source_module_name ≠ "" → source_name = dest_name →
      format_import source_module_name source_name dest_name =
        "from " ++ source_module_name ++ " import " ++ source_name) ∧
    (source_module_name ≠ "" → source_name ≠ dest_name →
      format_import source_module_name source_name dest_name =
        "from " ++ source_module_name ++ " import " ++ source_name ++ " as " ++ dest_name) ∧
    (source_module_name = "" → source_name = dest_name →
      format_import source_module_name source_name dest_name = "import " ++ source_name) ∧
    (source_module_name = "" → source_name ≠ dest_name →
      format_import source_module_name source_name dest_name =
        "import " ++ source_name ++ " as " ++ dest_name) := by
  refine ⟨?_, ?_, ?_, ?_⟩ <;> intro h1 h2 <;> simp [format_import, h1, h2]

/-- Witness for C7 at concrete inputs, one per case. -/
theorem claim_C7_witness :
    format_import "m" "x" "x" = "from m import x" ∧
    format_import "m" "x" "y" = "from m import x as y" ∧
    format_import "" "x" "x" = "import x" ∧
    format_import "" "x" "y" = "import x as y" :=
  ⟨(claim_C7_format_import_cases "m" "x" "x").1 (by decide) rfl,
   (claim_C7_format_import_cases "m" "x" "y").2.1 (by decide) (by decide),
   (claim_C7_format_import_cases "" "x" "x").2.2.1 rfl rfl,
   (claim_C7_format_import_cases "" "x" "y").2.2.2 rfl (by decide)⟩

/-- C9: `add_import` is atomic on failure — when it raises
`SymbolExposedTwiceError`, the builder state (name-to-identity map,
per-module candidate import sets, and underscore list) is exactly what it
was before the call: in the source the `raise` precedes all three
mutations. -/
theorem claim_C9_add_import_atomic (b : ModuleInitCodeBuilder) (sid : Int)
    (dm sm sn dn e : String)
    (h : (add_import b sid dm sm sn dn).2 = some e) :
    (add_import b sid dm sm sn dn).1 = b ∧
    (add_import b sid dm sm sn dn).1.module_imports = b.module_imports ∧
    (add_import b sid dm sm sn dn).1.dest_import_to_id = b.dest_import_to_id ∧
    (add_import b sid dm sm sn dn).1.underscore_names_in_root =
      b.underscore_names_in_root := by
  by_cases hr : raisesCheck b.dest_import_to_id sid (fullNameOf dm dn) = true
  · rw [add_import_of_raises b sid dm sm sn dn hr]
    exact ⟨rfl, rfl, rfl, rfl⟩
  · rw [add_import_of_not_raises b sid dm sm sn dn (by simpa using hr)] at h
    simp at h

/-- Witness for C9: a concrete raising call leaves the builder unchanged. -/
theorem claim_C9_witness :
    ((add_import (run_adds init [⟨1, "", "m", "x", "f"⟩]).1 2 "" "m" "y" "f").2 =
      some "Trying to export multiple symbols with same name: f.") ∧
    (add_import (run_adds init [⟨1, "", "m", "x", "f"⟩]).1 2 "" "m" "y" "f").1 =
      (run_adds init [⟨1, "", "m", "x", "f"⟩]).1 :=
  ⟨by decide,
   (claim_C9_add_import_atomic (run_adds init [⟨1, "", "m", "x", "f"⟩]).1 2 "" "m" "y" "f"
     "Trying to export multiple symbols with same name: f." (by decide)).1⟩

/-- C10: `build` assumes the root destination module has received at least
one `add_import`; on a builder with no entry for the root module (in
particular the freshly initialised builder) `build` dies with the uncaught
`KeyError` of line 140 (modelled as `none`), rather than returning a map
without a root entry or with an epilogue-only root text. -/
theorem claim_C10_build_requires_root :
    (∀ b : ModuleInitCodeBuilder,
      build b = none ↔ "" ∉ b.module_imports.map Prod.fst) ∧
    build init = none := by
  constructor
  · intro b
    rw [build_eq_none_iff, alistLookup_eq_none_iff_not_mem_keys]
  · rfl

/-- C2 counterexample: a name first added under the sentinel identity `-1`
and then re-added under the real identity `5` DOES raise — the source only
tests the current identity against the sentinel, not the previously
recorded one, refuting the claim that such a call does not raise. -/
theorem claim_C2_counterexample :
    (run_adds init [⟨-1, "", "m", "x", "f"⟩]).2 = none ∧
    alistLookup (run_adds init [⟨-1, "", "m", "x", "f"⟩]).1.dest_import_to_id "f" =
      some (-1) ∧
    ¬ ((add_import (run_adds init [⟨-1, "", "m", "x", "f"⟩]).1 5 "" "m" "y" "f").2 = none) ∧
    (add_import (run_adds init [⟨-1, "", "m", "x", "f"⟩]).1 5 "" "m" "y" "f").2 =
      some "Trying to export multiple symbols with same name: f." :=
  ⟨by decide, by decide, by decide, by decide⟩

/-- C2 amended: `add_import` raises exactly when the fully qualified name
already has a recorded identity different from the current one AND the
current identity is not the sentinel `-1`; the previously recorded
identity's sentinel-ness is never consulted, so a name previously added
under the sentinel does raise on a later add with a different real
identity. -/
theorem claim_C2_amended_raise_iff (b : ModuleInitCodeBuilder) (sid : Int)
    (dm sm sn dn : String) :
    (add_import b sid dm sm sn dn).2.isSome = true ↔
      (∃ prev, alistLookup b.dest_import_to_id (fullNameOf dm dn) = some prev ∧
        sid ≠ prev) ∧ sid ≠ -1 := by
  by_cases hr : raisesCheck b.dest_import_to_id sid (fullNameOf dm dn) = true
  · rw [add_import_of_raises b sid dm sm sn dn hr]
    simp only [Option.isSome_some, true_iff]
    unfold raisesCheck at hr
    rcases hl : alistLookup b.dest_import_to_id (fullNameOf dm dn) with _ | prev
    · rw [hl] at hr
      simp at hr
    · rw [hl] at hr
      simp only [Bool.and_eq_true, bne_iff_ne] at hr
      exact ⟨⟨prev, rfl, hr.1⟩, hr.2⟩
  · rw [add_import_of_not_raises b sid dm sm sn dn (by simpa using hr)]
    simp only [Option.isSome_none, Bool.false_eq_true, false_iff]
    rintro ⟨⟨prev, hl, hne⟩, hs⟩
    exact hr (raisesCheck_true_of_some hl hne hs)

/-- C1: over any successful sequence of `add_import` calls from a fresh
builder, (a) a further call with real identity `sid2` on a fully qualified
name that some earlier call added under a different real identity raises
`SymbolExposedTwiceError` naming that fully qualified name; (b) a call
repeating the identity currently recorded for the name succeeds without
raising; (c) a sequence of calls all carrying the sentinel `-1` never
raises, however many share a name. -/
theorem claim_C1_conflict_detection :
    (∀ ds : List ExportDecl, ∀ d1 ∈ ds, ∀ sid2 : Int, ∀ dm sm sn dn : String,
      (run_adds init ds).2 = none →
      declFull d1 = fullNameOf dm dn →
      d1.symbol_id ≠ -1 → sid2 ≠ -1 → sid2 ≠ d1.symbol_id →
      (add_import (run_adds init ds).1 sid2 dm sm sn dn).2 =
        some ("Trying to export multiple symbols with same name: " ++
          fullNameOf dm dn ++ ".")) ∧
    (∀ b : ModuleInitCodeBuilder, ∀ sid : Int, ∀ dm sm sn dn : String,
      alistLookup b.dest_import_to_id (fullNameOf dm dn) = some sid →
      (add_import b sid dm sm sn dn).2 = none) ∧
    (∀ b : ModuleInitCodeBuilder, ∀ ds : List ExportDecl,
      (∀ d ∈ ds, d.symbol_id = -1) → (run_adds b ds).2 = none) := by
  refine ⟨?_, ?_, ?_⟩
  · intro ds d1 hd1 sid2 dm sm sn dn hok hfull hr1 hr2 hne
    have hinv := run_adds_idInv_of_mem hok hd1
    rw [hfull] at hinv
    rcases hinv with ⟨r, hl, hcase⟩
    have hner : sid2 ≠ r := by
      rcases hcase with rfl | rfl
      · exact hne
      · exact hr2
    rw [add_import_of_raises _ _ _ _ _ _ (raisesCheck_true_of_some hl hner hr2)]
  · intro b sid dm sm sn dn hl
    rw [add_import_of_not_raises]
    unfold raisesCheck
    rw [hl]
    simp
  · intro b ds h
    exact run_adds_sentinel b ds h

/-- Witness for C1: (a) adding `f` under id 5 then under id 7 raises naming
`f`; (b) re-adding under the recorded id 5 succeeds; (c) two sentinel adds
sharing `f` succeed. -/
theorem claim_C1_witness :
    ((add_import (run_adds init [⟨5, "", "m", "x", "f"⟩]).1 7 "" "m" "y" "f").2 =
      some ("Trying to export multiple symbols with same name: " ++
        fullNameOf "" "f" ++ ".")) ∧
    ((add_import (run_adds init [⟨5, "", "m", "x", "f"⟩]).1 5 "" "m" "y" "f").2 = none) ∧
    ((run_adds init [⟨-1, "", "m", "x", "f"⟩, ⟨-1, "", "m2", "y", "f"⟩]).2 = none) :=
  ⟨claim_C1_conflict_detection.1 [⟨5, "", "m", "x", "f"⟩] ⟨5, "", "m", "x", "f"⟩
      (by decide) 7 "" "m" "y" "f" (by decide) (by decide) (by decide) (by decide) (by decide),
   claim_C1_conflict_detection.2.1 (run_adds init [⟨5, "", "m", "x", "f"⟩]).1 5
      "" "m" "y" "f" (by decide),
   claim_C1_conflict_detection.2.2 init [⟨-1, "", "m", "x", "f"⟩, ⟨-1, "", "m2", "y", "f"⟩]
      (by decide)⟩

/-- C4: parent-chain completeness — for any destination module `m` among the
modules seen by the synthesis loop, with segments `s0.s1...s(n-1)`, the loop
adds for every index `i` an import of segment `si` into its parent namespace
`s0...s(i-1)` (the root for `i = 0`) under the name `si`, with source module
the generated-output root package qualified by the parent path; and the
whole synthesis never raises (all its calls carry the sentinel). -/
theorem claim_C4_parent_chain (b : ModuleInitCodeBuilder) (modules : List String)
    (m : String) (i : Nat) (hm : m ∈ modules) (hne : m ≠ "")
    (hi : i < (pySplitDot m).length) :
    (add_parent_imports b modules).2 = none ∧
    hasImport (add_parent_imports b modules).1 (parentAt m i)
      (fullNameOf (parentAt m i) (segAt m i))
      (format_import (importFromAt m i) (segAt m i) (segAt m i)) = true := by
  have hids : ∀ d ∈ (modules.filter (fun m2 => m2 ≠ "")).flatMap parentChainDecls,
      d.symbol_id = -1 := by
    intro d hd
    rcases List.mem_flatMap.mp hd with ⟨m2, hm2, hdm⟩
    rcases List.mem_map.mp hdm with ⟨j, hj, rfl⟩
    rfl
  have hok : (add_parent_imports b modules).2 = none := run_adds_sentinel _ _ hids
  refine ⟨hok, ?_⟩
  unfold add_parent_imports at hok ⊢
  rw [run_adds_hasImport hok]
  right
  refine ⟨⟨-1, parentAt m i, importFromAt m i, segAt m i, segAt m i⟩, ?_, rfl, rfl, rfl⟩
  apply List.mem_flatMap.mpr
  refine ⟨m, List.mem_filter.mpr ⟨hm, by simp [hne]⟩, ?_⟩
  unfold parentChainDecls
  exact List.mem_map.mpr ⟨i, List.mem_range.mpr hi, rfl⟩

/-- Witness for C4: after the synthesis for module `a.b`, the module `a`
(parent of depth-1 segment `b`) contains the import of `b` from the
generated package qualified by `a`. -/
theorem claim_C4_witness :
    (add_parent_imports init ["a.b"]).2 = none ∧
    hasImport (add_parent_imports init ["a.b"]).1 (parentAt "a.b" 1)
      (fullNameOf (parentAt "a.b" 1) (segAt "a.b" 1))
      (format_import (importFromAt "a.b" 1) (segAt "a.b" 1) (segAt "a.b" 1)) = true :=
  claim_C4_parent_chain init ["a.b"] "a.b" 1 (by decide) (by decide) (by decide)

/-- C5: tie-break law — for any recorded candidate set with more than one
distinct statement, the chosen statement `pickImport` (`sorted(imports)[0]`)
is a member of the set and lexicographically least in it; the choice depends
only on the set's membership (hence not on insertion order); and the
module's emitted text is the newline-join of a sorted permutation of the
chosen statements of its names. -/
theorem claim_C5_tie_break (b : ModuleInitCodeBuilder) (m f : String)
    (inner : List (String × List String)) (s : List String)
    (h1 : alistLookup b.module_imports m = some inner)
    (h2 : alistLookup inner f = some s) (h3 : 1 < s.length) :
    (pickImport s ∈ s ∧ ∀ x ∈ s, strLe (pickImport s) x = true) ∧
    (∀ s2 : List String, (∀ x, x ∈ s2 ↔ x ∈ s) → pickImport s2 = pickImport s) ∧
    ∃ L, moduleText inner = String.intercalate "\n" L ∧ L.Sorted strLeP ∧
      L.Perm (inner.map (fun p => pickImport p.2)) := by
  have hne : s ≠ [] := by
    intro he
    rw [he] at h3
    simp at h3
  refine ⟨⟨pickImport_mem hne, fun x hx => pickImport_least hx⟩, ?_, ?_⟩
  · intro s2 hs2
    exact pickImport_congr hs2
  · refine ⟨sortStrings (inner.map (fun p => pickImport p.2)), ?_,
      sortStrings_sorted _, sortStrings_perm _⟩
    rfl

/-- Witness for C5: the same symbol reachable from `m1` and `m2` gives a
two-element candidate set whose chosen statement is the lexicographic
minimum. -/
theorem claim_C5_witness :
    pickImport ["from m1 import f", "from m2 import f"] ∈
      ["from m1 import f", "from m2 import f"] ∧
    ∀ x ∈ ["from m1 import f", "from m2 import f"],
      strLe (pickImport ["from m1 import f", "from m2 import f"]) x = true :=
  (claim_C5_tie_break
    (run_adds init [⟨1, "", "m1", "f", "f"⟩, ⟨1, "", "m2", "f", "f"⟩]).1 "" "f"
    [("f", ["from m1 import f", "from m2 import f"])]
    ["from m1 import f", "from m2 import f"]
    (by decide) (by decide) (by decide)).1

/-- C6: (a) every successful `add_import` with empty destination module and
an underscore-initial destination name appends that name to the underscore
list — an unconditional append, so duplicates are preserved in call order;
(b) the root text produced by `build` is the root module's import text
followed by the epilogue in which each accumulated name appears verbatim,
single-quoted, inside the `_names_with_underscore` list in accumulation
order, followed by the `__all__` definition extending the non-underscore
visible names by that list. -/
theorem claim_C6_underscore_epilogue :
    (∀ (b b2 : ModuleInitCodeBuilder) (sid : Int) (sm sn dn : String),
      startsWithChar dn '_' = true →
      add_import b sid "" sm sn dn = (b2, none) →
      b2.underscore_names_in_root = b.underscore_names_in_root ++ [dn]) ∧
    (∀ (b : ModuleInitCodeBuilder) (inner : List (String × List String)),
      alistLookup b.module_imports "" = some inner →
      buildLookup b "" = some (moduleText inner ++
        ("\n_names_with_underscore = [" ++
         String.intercalate ", "
           (b.underscore_names_in_root.map (fun name => sq ++ name ++ sq)) ++
         "]\n__all__ = [s for s in dir() if not s.startswith(" ++ sq ++ "_" ++ sq ++
         ")]\n__all__.extend([s for s in _names_with_underscore])\n"))) := by
  constructor
  · intro b b2 sid sm sn dn hu ha
    have hb := add_import_ok_eq ha
    subst hb
    rw [underscore_record]
    simp [hu]
  · intro b inner h
    rw [buildLookup_eq h "", if_pos rfl]
    rfl

/-- Witness for C6: a root export named `_a` is appended to the underscore
list, and the root text of the resulting builder carries the epilogue with
`_a` quoted inside the literal list. -/
theorem claim_C6_witness :
    ((add_import init 1 "" "m" "_a" "_a").1.underscore_names_in_root =
      init.underscore_names_in_root ++ ["_a"]) ∧
    buildLookup (run_adds init [⟨1, "", "m", "_a", "_a"⟩]).1 "" =
      some (moduleText [("_a", ["from m import _a"])] ++
        ("\n_names_with_underscore = [" ++
         String.intercalate ", "
           ((run_adds init [⟨1, "", "m", "_a", "_a"⟩]).1.underscore_names_in_root.map
             (fun name => sq ++ name ++ sq)) ++
         "]\n__all__ = [s for s in dir() if not s.startswith(" ++ sq ++ "_" ++ sq ++
         ")]\n__all__.extend([s for s in _names_with_underscore])\n")) :=
  ⟨claim_C6_underscore_epilogue.1 init (add_import init 1 "" "m" "_a" "_a").1 1 "m" "_a" "_a"
      (by decide) (by decide),
   claim_C6_underscore_epilogue.2 (run_adds init [⟨1, "", "m", "_a", "_a"⟩]).1
      [("_a", ["from m import _a"])] (by decide)⟩

/-- C8: the missing-output check of `create_api_files` collects EVERY
generated module without a registered output path (modules with a path do
not mask the missing ones) and fails once, with an error message carrying
the complete, lexicographically sorted, comma-newline-joined list of their
report paths; with no missing module it succeeds. -/
theorem claim_C8_missing_outputs
    (module_name_to_file_path module_text_map : List (String × String)) :
    (missingOutputFiles module_name_to_file_path module_text_map = [] →
      create_api_files_check module_name_to_file_path module_text_map = Except.ok ()) ∧
    (missingOutputFiles module_name_to_file_path module_text_map ≠ [] →
      create_api_files_check module_name_to_file_path module_text_map =
        Except.error ("Missing outputs for python_api_gen genrule:\n" ++
          String.intercalate ",\n"
            (sortStrings (missingOutputFiles module_name_to_file_path module_text_map)) ++
          ".Make sure all required outputs are in the tensorflow/tools/api/generator/BUILD file.")) ∧
    (∀ m, m ∈ module_text_map.map Prod.fst →
      alistLookup module_name_to_file_path m = none →
      moduleFilePath m ∈ missingOutputFiles module_name_to_file_path module_text_map) := by
  refine ⟨?_, ?_, ?_⟩
  · intro h
    unfold create_api_files_check
    simp [h]
  · intro h
    unfold create_api_files_check
    have he : (missingOutputFiles module_name_to_file_path module_text_map).isEmpty = false := by
      cases hmiss : missingOutputFiles module_name_to_file_path module_text_map with
      | nil => exact absurd hmiss h
      | cons a t => rfl
    simp [he]
  · intro m hm hl
    unfold missingOutputFiles
    rcases List.mem_map.mp hm with ⟨p, hp, rfl⟩
    exact List.mem_map.mpr ⟨p, List.mem_filter.mpr ⟨hp, by simp [hl]⟩, rfl⟩

/-- Witness for C8: with only the root path registered, both `a` and `a.b`
are reported, in one sorted message. -/
theorem claim_C8_witness :
    (create_api_files_check [("", "root.py")] [("", "t"), ("a.b", "t2"), ("a", "t3")] =
      Except.error ("Missing outputs for python_api_gen genrule:\n" ++
        String.intercalate ",\n"
          (sortStrings (missingOutputFiles [("", "root.py")]
            [("", "t"), ("a.b", "t2"), ("a", "t3")])) ++
        ".Make sure all required outputs are in the tensorflow/tools/api/generator/BUILD file.")) ∧
    moduleFilePath "a" ∈
      missingOutputFiles [("", "root.py")] [("", "t"), ("a.b", "t2"), ("a", "t3")] ∧
    moduleFilePath "a.b" ∈
      missingOutputFiles [("", "root.py")] [("", "t"), ("a.b", "t2"), ("a", "t3")] :=
  ⟨(claim_C8_missing_outputs [("", "root.py")] [("", "t"), ("a.b", "t2"), ("a", "t3")]).2.1
      (by decide),
   (claim_C8_missing_outputs [("", "root.py")] [("", "t"), ("a.b", "t2"), ("a", "t3")]).2.2
      "a" (by decide) (by decide),
   (claim_C8_missing_outputs [("", "root.py")] [("", "t"), ("a.b", "t2"), ("a", "t3")]).2.2
      "a.b" (by decide) (by decide)⟩

/-- C3 counterexample: the two orders of the same two root underscore
exports both succeed and are permutations of each other, yet the generated
root texts differ byte-wise — the epilogue lists `_names_with_underscore`
in accumulation order, so the output is NOT independent of the order of
`add_import` calls, refuting the claim for the root module. -/
theorem claim_C3_counterexample :
    List.Perm [(⟨1, "", "m", "_a", "_a"⟩ : ExportDecl), ⟨2, "", "m", "_b", "_b"⟩]
      [⟨2, "", "m", "_b", "_b"⟩, ⟨1, "", "m", "_a", "_a"⟩] ∧
    (run_adds init [(⟨1, "", "m", "_a", "_a"⟩ : ExportDecl), ⟨2, "", "m", "_b", "_b"⟩]).2 =
      none ∧
    (run_adds init [(⟨2, "", "m", "_b", "_b"⟩ : ExportDecl), ⟨1, "", "m", "_a", "_a"⟩]).2 =
      none ∧
    buildLookup
        (run_adds init [(⟨1, "", "m", "_a", "_a"⟩ : ExportDecl), ⟨2, "", "m", "_b", "_b"⟩]).1
        "" ≠
      buildLookup
        (run_adds init [(⟨2, "", "m", "_b", "_b"⟩ : ExportDecl), ⟨1, "", "m", "_a", "_a"⟩]).1
        "" :=
  ⟨List.Perm.swap _ _ _, by decide, by decide, by decide⟩

/-- C3 amended: for two successful runs over permutations of the same
declarations, the generated text of EVERY destination module is
byte-identical provided the two orders agree on the sequence of root-level
underscore-named exports (the only order-sensitive output, as the
counterexample shows): the import-statement portion of every module, the
set of generated modules, and the root epilogue then all coincide. -/
theorem claim_C3_amended_determinism {ds1 ds2 : List ExportDecl}
    (hperm : ds1.Perm ds2)
    (h1 : (run_adds init ds1).2 = none) (h2 : (run_adds init ds2).2 = none)
    (hund : ds1.filterMap underscoreOf = ds2.filterMap underscoreOf) (m : String) :
    buildLookup (run_adds init ds1).1 m = buildLookup (run_adds init ds2).1 m :=
  run_adds_buildLookup_perm hperm h1 h2 hund m

/-- Witness for C3: permuting a real export with an underscore export (one
underscore name, so the underscore sequences agree) leaves the root text
byte-identical. -/
theorem claim_C3_witness :
    buildLookup
        (run_adds init [(⟨1, "", "m", "x", "f"⟩ : ExportDecl), ⟨2, "", "m", "_a", "_a"⟩]).1
        "" =
      buildLookup
        (run_adds init [(⟨2, "", "m", "_a", "_a"⟩ : ExportDecl), ⟨1, "", "m", "x", "f"⟩]).1
        "" :=
  claim_C3_amended_determinism (List.Perm.swap _ _ _) (by decide) (by decide) (by decide) ""

end CreatePythonApi
